import Mathlib

/-!
Verification of the KaGen generator core against its specification.

The definitions below are a shallow embedding of the C++ sources:
`src/kagen/generators/generator.cpp` (generator state machine, factory
normalization helpers), `src/kagen/facade.cpp` (orchestration / error paths),
`src/app/tools/chkgraph.cpp` (ComputeRange) and `src/library/kagen.cpp`
(option-string mini-language).  Machine integers (`SInt`, unsigned 64-bit)
are modelled as `Nat`; none of the verified claims depends on wrap-around
behaviour.  Vectors are modelled as `List`, and moving a `std::vector` out
of an object leaves the empty vector behind.
-/

namespace kagen

/-- An edge is an ordered pair (tail, head) of global vertex ids. -/
abbrev Edge := Nat × Nat

/-- Half-open interval [first, last) of global vertex ids owned by a process. -/
abbrev VertexRange := Nat × Nat

/-- Requested graph representation (kagen/definitions.h). -/
inductive GraphRepresentation where
| EDGE_LIST
| CSR
deriving DecidableEq, Repr

/-- The `Graph` result container.  `P2`/`P3` are the entry types of the 2-D and
3-D coordinate vectors (float tuples in the source, kept abstract here); vertex
and edge weights are signed (`SSInt`). -/
structure Graph (P2 P3 : Type) where
  vertex_range : VertexRange
  representation : GraphRepresentation
  edges : List Edge
  xadj : List Nat
  adjncy : List Nat
  vertex_weights : List Int
  edge_weights : List Int
  coordinates : List P2 × List P3
deriving DecidableEq

/-- The mutable buffers of a `Generator` (members `vertex_range_`,
`representation_`, `edges_`, `xadj_`, `adjncy_`, `vertex_weights_`,
`edge_weights_`, `coordinates_` of the C++ class). -/
structure GeneratorState (P2 P3 : Type) where
  vertex_range : VertexRange
  representation : GraphRepresentation
  edges : List Edge
  xadj : List Nat
  adjncy : List Nat
  vertex_weights : List Int
  edge_weights : List Int
  coordinates : List P2 × List P3
deriving DecidableEq

/-- The virtual entry points a concrete generator family provides.  The MPI
communicator argument of the finalize hooks is dropped: the embedded
finalizers act on the local state only. -/
structure GeneratorImpl (P2 P3 : Type) where
  GenerateEdgeList : GeneratorState P2 P3 → GeneratorState P2 P3
  GenerateCSR : GeneratorState P2 P3 → GeneratorState P2 P3
  FinalizeEdgeList : GeneratorState P2 P3 → GeneratorState P2 P3
  FinalizeCSR : GeneratorState P2 P3 → GeneratorState P2 P3

namespace Generator

variable {P2 P3 : Type}

/-- `Generator::Reset` (generator.cpp:102-110): clears the seven buffers,
leaves `vertex_range_` and `representation_` untouched. -/
def Reset (s : GeneratorState P2 P3) : GeneratorState P2 P3 :=
  { s with
    edges := []
    xadj := []
    adjncy := []
    vertex_weights := []
    edge_weights := []
    coordinates := ([], []) }

/-- `Generator::Generate` (generator.cpp:14-28): reset, record the requested
representation, then dispatch to the family's native entry point. -/
def Generate (impl : GeneratorImpl P2 P3) (representation : GraphRepresentation)
    (s : GeneratorState P2 P3) : GeneratorState P2 P3 :=
  let s0 := Reset s
  let s1 := { s0 with representation := representation }
  match representation with
  | GraphRepresentation.EDGE_LIST => impl.GenerateEdgeList s1
  | GraphRepresentation.CSR => impl.GenerateCSR s1

/-- `Generator::Finalize` (generator.cpp:30-40). -/
def Finalize (impl : GeneratorImpl P2 P3) (s : GeneratorState P2 P3) :
    GeneratorState P2 P3 :=
  match s.representation with
  | GraphRepresentation.EDGE_LIST => impl.FinalizeEdgeList s
  | GraphRepresentation.CSR => impl.FinalizeCSR s

/-- `Generator::Take` (generator.cpp:80-90): builds the `Graph` from the
current buffers; the moved-from vectors are left empty, the scalar members
(`vertex_range_`, `representation_`) are copied. -/
def Take (s : GeneratorState P2 P3) : Graph P2 P3 × GeneratorState P2 P3 :=
  ({ vertex_range := s.vertex_range
     representation := s.representation
     edges := s.edges
     xadj := s.xadj
     adjncy := s.adjncy
     vertex_weights := s.vertex_weights
     edge_weights := s.edge_weights
     coordinates := s.coordinates },
   { s with
     edges := []
     xadj := []
     adjncy := []
     vertex_weights := []
     edge_weights := []
     coordinates := ([], []) })

/-- `Generator::GetNumberOfEdges` (generator.cpp:76-78). -/
def GetNumberOfEdges (s : GeneratorState P2 P3) : Nat :=
  max s.adjncy.length s.edges.length

end Generator

/-- Modelled from the spec: `BuildCSRFromEdgeList` lives in
`kagen/tools/converter.h`, which is not among the given sources.  Per the
spec (4.3) it groups the edges by local tail vertex (tail − range.first),
producing a monotonically non-decreasing `xadj` whose entry `i` counts the
edges with local tail below `i`; within each vertex's slice the neighbor
order is the stable order of the input edge list.  Self-loops and
multi-edges are preserved.  (The optional reordering of edge weights is not
modelled; no claim refers to it.) -/
def csrNeighborhoods (range : VertexRange) (edges : List Edge) : List (List Nat) :=
  (List.range (range.2 - range.1)).map
    (fun i => (edges.filter (fun e => e.1 == range.1 + i)).map Prod.snd)

/-- Modelled from the spec: see `csrNeighborhoods`. -/
def BuildCSRFromEdgeList (range : VertexRange) (edges : List Edge) :
    List Nat × List Nat :=
  let nbh := csrNeighborhoods range edges
  ((List.range (nbh.length + 1)).map
     (fun i => (((nbh.take i).map List.length).sum)),
   nbh.flatten)

/-- Modelled from the spec: `BuildEdgeListFromCSR` lives in
`kagen/tools/converter.h`, which is not among the given sources.  Per the
spec (4.3) it is the inverse expansion: for local vertex `i` it emits one
edge `(range.first + i, adjncy[j])` for each `j` in `[xadj[i], xadj[i+1])`. -/
def BuildEdgeListFromCSR (range : VertexRange) (xadj adjncy : List Nat) :
    List Edge :=
  (List.range (xadj.length - 1)).flatMap
    (fun i =>
      ((adjncy.drop (xadj.getD i 0)).take (xadj.getD (i + 1) 0 - xadj.getD i 0)).map
        (fun head => (range.1 + i, head)))

/-- The spec's reading of the round-trip result: the input edge list grouped
by tail vertex, with the intra-group order of the input preserved. -/
def groupedByTailVertex (range : VertexRange) (edges : List Edge) : List Edge :=
  (List.range (range.2 - range.1)).flatMap
    (fun i => edges.filter (fun e => e.1 == range.1 + i))

/-- `CSROnlyGenerator` (generator.cpp:46-59): `GenerateEdgeList` delegates to
`GenerateCSR`; `FinalizeEdgeList` converts the CSR buffers into an edge list
(note: the source does not clear `xadj_`/`adjncy_` afterwards).  `genCSR` is
the family's native generation step, `finCSR` its `FinalizeCSR` hook (the
base-class default is the identity). -/
def CSROnlyGenerator (P2 P3 : Type)
    (genCSR finCSR : GeneratorState P2 P3 → GeneratorState P2 P3) :
    GeneratorImpl P2 P3 where
  GenerateEdgeList := genCSR
  GenerateCSR := genCSR
  FinalizeEdgeList := fun s =>
    if s.xadj.isEmpty then s
    else
      let s1 := finCSR s
      { s1 with edges := BuildEdgeListFromCSR s1.vertex_range s1.xadj s1.adjncy }
  FinalizeCSR := finCSR

/-- `EdgeListOnlyGenerator` (generator.cpp:61-74): `GenerateCSR` delegates to
`GenerateEdgeList`; `FinalizeCSR` converts the edge list into CSR buffers
(note: the source does not clear `edges_` afterwards). -/
def EdgeListOnlyGenerator (P2 P3 : Type)
    (genEdgeList finEdgeList : GeneratorState P2 P3 → GeneratorState P2 P3) :
    GeneratorImpl P2 P3 where
  GenerateEdgeList := genEdgeList
  GenerateCSR := genEdgeList
  FinalizeEdgeList := finEdgeList
  FinalizeCSR := fun s =>
    if !s.xadj.isEmpty then s
    else
      let s1 := finEdgeList s
      { s1 with
        xadj := (BuildCSRFromEdgeList s1.vertex_range s1.edges).1
        adjncy := (BuildCSRFromEdgeList s1.vertex_range s1.edges).2 }

/-- Lexicographic comparison of edges, as `std::pair::operator<=`.  Used to
model `std::sort` over the edge list: the order is total and antisymmetric,
so the sorted list is unique and `List.mergeSort` computes it. -/
def edgeLE (a b : Edge) : Bool :=
  a.1 < b.1 || (a.1 == b.1 && a.2 ≤ b.2)

/-- `std::unique` + `erase` on the sorted edge list: drops an element that
equals its neighbor, keeping one representative per run of equal values. -/
def removeConsecutiveDuplicates : List Edge → List Edge
  | [] => []
  | [a] => [a]
  | a :: b :: rest =>
    if a = b then removeConsecutiveDuplicates (b :: rest)
    else a :: removeConsecutiveDuplicates (b :: rest)

namespace Generator

variable {P2 P3 : Type}

/-- `Generator::FilterDuplicateEdges` (generator.cpp:96-100): sorts the local
edge list and removes adjacent duplicates. -/
def FilterDuplicateEdges (s : GeneratorState P2 P3) : GeneratorState P2 P3 :=
  { s with edges := removeConsecutiveDuplicates (s.edges.mergeSort edgeLE) }

end Generator

/-- `IsPowerOfTwo` (generator.cpp:122-124): the bit trick `value & (value-1) == 0`. -/
def IsPowerOfTwo (value : Nat) : Bool :=
  value &&& (value - 1) == 0

/-- The integer nearest to the real square root of `n`, computed exactly:
`std::round(std::sqrt(value))` of generator.cpp:127 (`std::sqrt` on a `double`
is correctly rounded, so for the 53-bit values in play the C++ expression
computes this number).  `√n ≥ r + 1/2` iff `4n ≥ (2r+1)²`, and equality is
impossible because `(2r+1)²` is odd. -/
def roundedSqrt (n : Nat) : Nat :=
  let r := Nat.sqrt n
  if (2 * r + 1) * (2 * r + 1) ≤ 4 * n then r + 1 else r

/-- `IsSquare` (generator.cpp:126-129): `round(sqrt(value))² == value`. -/
def IsSquare (value : Nat) : Bool :=
  let root := roundedSqrt value
  root * root == value

/-- `FindSquareMultipleOf` (generator.cpp:136-153).  The loop over
`cur = root, ..., value-1` returning the first `cur²` divisible by `value`
is modelled by `List.find?` over `List.range' root (value - root)`;
`std::sqrt` truncated to an integer is the floor `Nat.sqrt`. -/
def FindSquareMultipleOf (value : Nat) : Nat :=
  if IsSquare value then value
  else if IsPowerOfTwo value then 2 * value
  else
    let root := Nat.sqrt value
    match (List.range' root (value - root)).find?
        (fun cur => cur * cur % value == 0) with
    | some cur => cur * cur
    | none => value * value

/-- `GeneratorFactory::EnsureSquareChunkSize` (generator.cpp:181-187); the
thrown `ConfigurationError` is modelled as `Except.error` carrying the
message.  Returns the (possibly derived) chunk count `k`. -/
def EnsureSquareChunkSize (k : Nat) (size : Nat) : Except String Nat :=
  if k == 0 then Except.ok (FindSquareMultipleOf size)
  else if !IsSquare k then Except.error "number of chunks must be square"
  else Except.ok k

/-- `ComputeRange` (chkgraph.cpp:19-25): the balanced contiguous partition of
`[0, n)` over `size` processes. -/
def ComputeRange (n : Nat) (size : Nat) (rank : Nat) : Nat × Nat :=
  let chunk := n / size
  let rem := n % size
  let lo := rank * chunk + min rank rem
  let hi := min (lo + (if rank < rem then chunk + 1 else chunk)) n
  (lo, hi)

/-- Per-process observables of the facade's `Generate` (facade.cpp:103-199):
whether a configuration error was printed, whether a validation error was
printed, whether the concrete generator got constructed, and the process's
exit status (`some c` = the process called `std::exit(c)`, `none` = `Generate`
returned normally). -/
structure FacadeObs where
  configErrorReported : Bool
  validationErrorReported : Bool
  generatorConstructed : Bool
  exitCode : Option Nat
deriving DecidableEq, Repr

/-- The root rank (`ROOT` in kagen/definitions.h). -/
def ROOT : Nat := 0

/-- Control-flow model of `Generate` in facade.cpp:103-199 as observed by the
process of rank `rank`.  `normalizeResult` is the outcome of
`factory->NormalizeParameters` (identical on every rank: it is a function of
the shared configuration and communicator size); `validate` is
`config.validate_simple_graph`; `localValid` holds each rank's return value of
`ValidateSimpleGraph`, and the `MPI_Allreduce` with `MPI_LOR` (facade.cpp:170)
is the boolean OR over all of them. -/
def facadeGenerate (normalizeResult : Except String Nat) (validate : Bool)
    (localValid : List Bool) (rank : Nat) : FacadeObs :=
  match normalizeResult with
  | Except.error _ =>
    { configErrorReported := rank == ROOT
      validationErrorReported := false
      generatorConstructed := false
      exitCode := some 1 }
  | Except.ok _ =>
    let reduced := localValid.any (fun b => b)
    if validate && !reduced then
      { configErrorReported := false
        validationErrorReported := rank == ROOT
        generatorConstructed := true
        exitCode := some 1 }
    else
      { configErrorReported := false
        validationErrorReported := false
        generatorConstructed := true
        exitCode := none }

/-- C++ `std::string`, modelled as its character sequence. -/
abbrev CppString := List Char

/-- Accumulator worker for `getlineSplit`: `acc` holds the reversed characters
of the token read so far; at a `;` the token is emitted, and at end-of-stream
a token is emitted only if at least one character (or a delimiter-terminated
empty token) was consumed — exactly when `std::getline` succeeds. -/
def getlineSplitAux : CppString → CppString → List CppString
  | acc, [] => if acc = [] then [] else [acc.reverse]
  | acc, c :: rest =>
    if c = ';' then acc.reverse :: getlineSplitAux [] rest
    else getlineSplitAux (c :: acc) rest

/-- The `std::getline(toker, pair, ';')` loop of `ParseOptionString`
(kagen.cpp:58-75): split at `;`, dropping a trailing empty field (a final
delimiter ends the last token rather than starting an empty one). -/
def getlineSplit (s : CppString) : List CppString :=
  getlineSplitAux [] s

/-- One `key[=value]` component (kagen.cpp:64-71): without `=` the component
is a flag bound to "1"; otherwise the key is the part before the first `=`
and the value everything after it. -/
def parseOptionPair (p : CppString) : CppString × CppString :=
  match p.findIdx? (fun ch => ch = '=') with
  | none => (p, ['1'])
  | some i => (p.take i, p.drop (i + 1))

/-- `ParseOptionString` (kagen.cpp:58-75).  The `std::unordered_map` is
modelled as the association list of bindings in insertion order; lookups take
the last binding (the map's `operator[]` overwrites). -/
def ParseOptionString (options : CppString) : List (CppString × CppString) :=
  (getlineSplit options).map parseOptionPair

/-- Lookup in the modelled `unordered_map`: the last binding wins. -/
def optionsGet : List (CppString × CppString) → CppString → Option CppString
  | [], _ => none
  | kv :: rest, key =>
    match optionsGet rest key with
    | some v => some v
    | none => if kv.1 = key then some kv.2 else none

/-- Models `std::stoll` on the nonnegative decimal literals the option-string
mini-language uses. -/
def stollModel (s : CppString) : Nat :=
  s.foldl (fun acc c => 10 * acc + (c.toNat - 48)) 0

/-- `get_sint_or_default` (kagen.cpp:87-90). -/
def getSintOrDefault (opts : List (CppString × CppString)) (key : CppString)
    (default : Nat) : Nat :=
  match optionsGet opts key with
  | none => default
  | some v => stollModel v

/-- `get_bool_or_default` (kagen.cpp:95-99). -/
def getBoolOrDefault (opts : List (CppString × CppString)) (key : CppString)
    (default : Bool) : Bool :=
  match optionsGet opts key with
  | none => default
  | some v => v = ['1'] || v = ['t', 'r', 'u', 'e'] || v = ['y', 'e', 's']

/-- The `config.n` assignment of `GenericGenerateFromOptionString`
(kagen.cpp:102): `n` defaults to `1ull << N` where `N` itself defaults to 0. -/
def optionStringConfigN (options : CppString) : Nat :=
  let opts := ParseOptionString options
  getSintOrDefault opts ['n'] (1 <<< getSintOrDefault opts ['N'] 0)

/-- The keys of an option string's components, in order. -/
def optionStringKeys (options : CppString) : List CppString :=
  (getlineSplit options).map (fun p => (parseOptionPair p).1)

/-- The spec's representation invariant on a `Graph` (§3): exactly one of
{edge list non-empty, CSR pair non-empty} is populated. -/
abbrev ExactlyOneRepresentationPopulated {P2 P3 : Type} (g : Graph P2 P3) : Prop :=
  (g.edges ≠ [] ∧ g.xadj = [] ∧ g.adjncy = []) ∨
  (g.edges = [] ∧ ¬(g.xadj = [] ∧ g.adjncy = []))

/-- A minimal CSR-native generation step used to exercise the state machine
in concrete runs: one local vertex `0` with a self-loop, produced directly in
CSR form (`xadj = [0, 1]`, `adjncy = [0]`). -/
def selfLoopGenerateCSR (s : GeneratorState Unit Unit) : GeneratorState Unit Unit :=
  { s with vertex_range := (0, 1), xadj := [0, 1], adjncy := [0] }

/-- A generator state whose buffers are all empty. -/
def emptyGeneratorState : GeneratorState Unit Unit :=
  { vertex_range := (0, 0)
    representation := GraphRepresentation.EDGE_LIST
    edges := []
    xadj := []
    adjncy := []
    vertex_weights := []
    edge_weights := []
    coordinates := ([], []) }

/-- A generator state with stale data in every buffer, as left behind by some
previous generation call. -/
def dirtyGeneratorState : GeneratorState Unit Unit :=
  { vertex_range := (0, 0)
    representation := GraphRepresentation.CSR
    edges := [(7, 7), (7, 8)]
    xadj := [0, 2]
    adjncy := [7, 8]
    vertex_weights := [3]
    edge_weights := [4, 4]
    coordinates := ([()], [()]) }

/-- The graph obtained from a full `Generate` / `Finalize` / `Take` run of the
self-loop CSR-native generator with the EDGE_LIST representation requested
(so `CSROnlyGenerator::FinalizeEdgeList` performs the conversion). -/
def csrConversionRunGraph : Graph Unit Unit :=
  (Generator.Take
    (Generator.Finalize (CSROnlyGenerator Unit Unit selfLoopGenerateCSR id)
      (Generator.Generate (CSROnlyGenerator Unit Unit selfLoopGenerateCSR id)
        GraphRepresentation.EDGE_LIST emptyGeneratorState))).1

/-- Claim C4: `Take` moves the vertex range, representation tag, edge list,
CSR pair, vertex weights, edge weights and coordinates into the returned
`Graph`, leaves every internal buffer of the generator empty, and a second
`Take` (with no intervening `Generate`) yields an empty graph: no edges, no
CSR entries, no weights, no coordinates. -/
theorem Take_exactly_once {P2 P3 : Type} (s : GeneratorState P2 P3) :
    ((Generator.Take s).1.vertex_range = s.vertex_range ∧
     (Generator.Take s).1.representation = s.representation ∧
     (Generator.Take s).1.edges = s.edges ∧
     (Generator.Take s).1.xadj = s.xadj ∧
     (Generator.Take s).1.adjncy = s.adjncy ∧
     (Generator.Take s).1.vertex_weights = s.vertex_weights ∧
     (Generator.Take s).1.edge_weights = s.edge_weights ∧
     (Generator.Take s).1.coordinates = s.coordinates) ∧
    ((Generator.Take s).2.edges = [] ∧
     (Generator.Take s).2.xadj = [] ∧
     (Generator.Take s).2.adjncy = [] ∧
     (Generator.Take s).2.vertex_weights = [] ∧
     (Generator.Take s).2.edge_weights = [] ∧
     (Generator.Take s).2.coordinates = ([], [])) ∧
    ((Generator.Take (Generator.Take s).2).1.edges = [] ∧
     (Generator.Take (Generator.Take s).2).1.xadj = [] ∧
     (Generator.Take (Generator.Take s).2).1.adjncy = [] ∧
     (Generator.Take (Generator.Take s).2).1.vertex_weights = [] ∧
     (Generator.Take (Generator.Take s).2).1.edge_weights = [] ∧
     (Generator.Take (Generator.Take s).2).1.coordinates = ([], [])) :=
  ⟨⟨rfl, rfl, rfl, rfl, rfl, rfl, rfl, rfl⟩,
   ⟨rfl, rfl, rfl, rfl, rfl, rfl⟩,
   ⟨rfl, rfl, rfl, rfl, rfl, rfl⟩⟩

/-- Claim C10: every call to `Generate` first clears all seven internal
buffers via `Reset` (which preserves the stored vertex range and
representation tag), so the state handed to the family's native generation
step — and with it the new result — is independent of whatever a previous
generation call left in the buffers. -/
theorem Generate_resets_no_leak {P2 P3 : Type} (impl : GeneratorImpl P2 P3)
    (rep : GraphRepresentation) (s t : GeneratorState P2 P3) :
    ((Generator.Reset s).edges = [] ∧
     (Generator.Reset s).xadj = [] ∧
     (Generator.Reset s).adjncy = [] ∧
     (Generator.Reset s).vertex_weights = [] ∧
     (Generator.Reset s).edge_weights = [] ∧
     (Generator.Reset s).coordinates.1 = [] ∧
     (Generator.Reset s).coordinates.2 = [] ∧
     (Generator.Reset s).vertex_range = s.vertex_range ∧
     (Generator.Reset s).representation = s.representation) ∧
    (s.vertex_range = t.vertex_range →
      Generator.Generate impl rep s = Generator.Generate impl rep t) := by
  refine ⟨⟨rfl, rfl, rfl, rfl, rfl, rfl, rfl, rfl, rfl⟩, fun h => ?_⟩
  cases rep <;> simp [Generator.Generate, Generator.Reset, h]

/-- Witness for `Generate_resets_no_leak`: a run from a state with stale data
in every buffer produces the same state as a run from the pristine state. -/
theorem Generate_resets_no_leak_witness :
    Generator.Generate (CSROnlyGenerator Unit Unit selfLoopGenerateCSR id)
        GraphRepresentation.EDGE_LIST dirtyGeneratorState =
      Generator.Generate (CSROnlyGenerator Unit Unit selfLoopGenerateCSR id)
        GraphRepresentation.EDGE_LIST emptyGeneratorState :=
  (Generate_resets_no_leak (CSROnlyGenerator Unit Unit selfLoopGenerateCSR id)
    GraphRepresentation.EDGE_LIST dirtyGeneratorState emptyGeneratorState).2 rfl

/-- Claim C2 (code bug): with a CSR-native generator and the EDGE_LIST
representation requested, `CSROnlyGenerator::FinalizeEdgeList`
(generator.cpp:50-59) builds the edge list from the CSR buffers but never
clears `xadj_`/`adjncy_`, so the graph returned by `Take` has BOTH the edge
list and the CSR pair populated — the spec's exactly-one invariant fails.
Failing input: one local vertex 0 with a self-loop, generated natively in CSR
form (`xadj = [0,1]`, `adjncy = [0]`). -/
theorem finalize_conversion_populates_both :
    ¬ ExactlyOneRepresentationPopulated csrConversionRunGraph ∧
    csrConversionRunGraph.edges = [(0, 0)] ∧
    csrConversionRunGraph.xadj = [0, 1] ∧
    csrConversionRunGraph.adjncy = [0] := by
  decide

/-- Transitivity of the lexicographic edge order. -/
theorem edgeLE_trans (a b c : Edge) (h1 : edgeLE a b = true)
    (h2 : edgeLE b c = true) : edgeLE a c = true := by
  simp only [edgeLE, Bool.or_eq_true, Bool.and_eq_true, decide_eq_true_eq,
    beq_iff_eq] at h1 h2 ⊢
  omega

/-- Totality of the lexicographic edge order. -/
theorem edgeLE_total (a b : Edge) : (edgeLE a b || edgeLE b a) = true := by
  simp only [edgeLE, Bool.or_eq_true, Bool.and_eq_true, decide_eq_true_eq,
    beq_iff_eq]
  omega

/-- `std::unique` only drops elements. -/
theorem removeConsecutiveDuplicates_sublist :
    ∀ l : List Edge, List.Sublist (removeConsecutiveDuplicates l) l
  | [] => List.Sublist.refl _
  | [_] => List.Sublist.refl _
  | a :: b :: rest => by
    simp only [removeConsecutiveDuplicates]
    split
    · exact (removeConsecutiveDuplicates_sublist (b :: rest)).cons a
    · exact (removeConsecutiveDuplicates_sublist (b :: rest)).cons₂ a

/-- `std::unique` keeps the head value of a nonempty list. -/
theorem removeConsecutiveDuplicates_cons :
    ∀ (l : List Edge) (a : Edge),
      ∃ t, removeConsecutiveDuplicates (a :: l) = a :: t
  | [], _ => ⟨[], rfl⟩
  | b :: rest, a => by
    simp only [removeConsecutiveDuplicates]
    split
    · rename_i h
      obtain ⟨t, ht⟩ := removeConsecutiveDuplicates_cons rest b
      exact ⟨t, by rw [ht, h]⟩
    · exact ⟨removeConsecutiveDuplicates (b :: rest), rfl⟩

/-- After `std::unique`, no two adjacent elements are equal. -/
theorem removeConsecutiveDuplicates_chain :
    ∀ l : List Edge,
      (removeConsecutiveDuplicates l).Chain' (fun x y => x ≠ y)
  | [] => List.chain'_nil
  | [a] => List.chain'_singleton a
  | a :: b :: rest => by
    simp only [removeConsecutiveDuplicates]
    split
    · exact removeConsecutiveDuplicates_chain (b :: rest)
    · rename_i h
      obtain ⟨t, ht⟩ := removeConsecutiveDuplicates_cons rest b
      rw [ht, List.chain'_cons]
      exact ⟨h, ht ▸ removeConsecutiveDuplicates_chain (b :: rest)⟩

/-- A list without adjacent duplicates is unchanged by `std::unique`. -/
theorem removeConsecutiveDuplicates_of_chain :
    ∀ l : List Edge, l.Chain' (fun x y => x ≠ y) →
      removeConsecutiveDuplicates l = l
  | [], _ => rfl
  | [_], _ => rfl
  | a :: b :: rest, h => by
    rw [List.chain'_cons] at h
    simp only [removeConsecutiveDuplicates]
    rw [if_neg h.1, removeConsecutiveDuplicates_of_chain (b :: rest) h.2]

/-- One pass of sort + unique; the list-level core of `FilterDuplicateEdges`. -/
theorem filterDuplicateList_idem (l : List Edge) :
    removeConsecutiveDuplicates
        ((removeConsecutiveDuplicates (l.mergeSort edgeLE)).mergeSort edgeLE) =
      removeConsecutiveDuplicates (l.mergeSort edgeLE) := by
  have hsorted :=
    List.sorted_mergeSort (fun a b c => edgeLE_trans a b c)
      (fun a b => edgeLE_total a b) l
  have hpair :=
    hsorted.sublist (removeConsecutiveDuplicates_sublist (l.mergeSort edgeLE))
  rw [List.mergeSort_of_sorted hpair]
  exact removeConsecutiveDuplicates_of_chain _
    (removeConsecutiveDuplicates_chain (l.mergeSort edgeLE))

/-- Claim C6: `FilterDuplicateEdges` is idempotent — it sorts the local edge
list (by the lexicographic pair order of `std::sort`) and removes adjacent
duplicates, so a second application finds an already-sorted, already-unique
list and leaves the state unchanged. -/
theorem FilterDuplicateEdges_idempotent {P2 P3 : Type} (s : GeneratorState P2 P3) :
    Generator.FilterDuplicateEdges (Generator.FilterDuplicateEdges s) =
      Generator.FilterDuplicateEdges s ∧
    (Generator.FilterDuplicateEdges s).edges =
      removeConsecutiveDuplicates (s.edges.mergeSort edgeLE) ∧
    (Generator.FilterDuplicateEdges s).edges.Chain' (fun x y => x ≠ y) := by
  refine ⟨?_, rfl, removeConsecutiveDuplicates_chain _⟩
  simp only [Generator.FilterDuplicateEdges]
  rw [filterDuplicateList_idem]

/-- A positive value whose bit-trick test passes is a power of two. -/
theorem pow2_of_land_pred :
    ∀ n : Nat, 0 < n → n &&& (n - 1) = 0 → ∃ j, n = 2 ^ j := by
  intro n
  induction n using Nat.strong_induction_on with
  | _ n ih =>
    intro hn h
    rcases Nat.even_or_odd n with he | ho
    · obtain ⟨m, hm⟩ := he
      have hmpos : 0 < m := by omega
      have hdiv := Nat.and_div_two (a := n) (b := n - 1)
      rw [h, Nat.zero_div] at hdiv
      have e1 : n / 2 = m := by omega
      have e2 : (n - 1) / 2 = m - 1 := by omega
      rw [e1, e2] at hdiv
      obtain ⟨j, hj⟩ := ih m (by omega) hmpos hdiv.symm
      exact ⟨j + 1, by rw [pow_succ]; omega⟩
    · obtain ⟨m, hm⟩ := ho
      rcases Nat.eq_zero_or_pos m with h0 | hmpos
      · exact ⟨0, by omega⟩
      · exfalso
        have hdiv := Nat.and_div_two (a := n) (b := n - 1)
        rw [h, Nat.zero_div] at hdiv
        have e1 : n / 2 = m := by omega
        have e2 : (n - 1) / 2 = m := by omega
        rw [e1, e2, Nat.and_self] at hdiv
        omega

/-- The rounding in `IsSquare` is immaterial: the test succeeds exactly when
the floor square root squares back to the input. -/
theorem IsSquare_true_iff (n : Nat) :
    IsSquare n = true ↔ Nat.sqrt n * Nat.sqrt n = n := by
  have hle : Nat.sqrt n * Nat.sqrt n ≤ n := Nat.sqrt_le n
  have hlt : n < (Nat.sqrt n + 1) * (Nat.sqrt n + 1) := Nat.lt_succ_sqrt n
  simp only [IsSquare, roundedSqrt, beq_iff_eq]
  split
  · rename_i hcond
    have hexp : (2 * Nat.sqrt n + 1) * (2 * Nat.sqrt n + 1) =
        4 * (Nat.sqrt n * Nat.sqrt n) + 4 * Nat.sqrt n + 1 := by ring
    constructor
    · intro hbeq
      omega
    · intro heq
      omega
  · simp only []

/-- Perfect squares pass `IsSquare`. -/
theorem IsSquare_sq (r : Nat) : IsSquare (r * r) = true := by
  rw [IsSquare_true_iff, Nat.sqrt_eq]

/-- `IsSquare` unfolded on the rounded square root. -/
theorem IsSquare_eq_true_iff_rounded (n : Nat) :
    IsSquare n = true ↔ roundedSqrt n * roundedSqrt n = n := by
  simp [IsSquare]

/-- `FindSquareMultipleOf` returns a perfect square that is a multiple of its
argument, in each of its four branches. -/
theorem FindSquareMultipleOf_spec (v : Nat) (hv : 0 < v) :
    (∃ r, r * r = FindSquareMultipleOf v) ∧ v ∣ FindSquareMultipleOf v := by
  unfold FindSquareMultipleOf
  split
  · rename_i hsq
    exact ⟨⟨Nat.sqrt v, (IsSquare_true_iff v).mp hsq⟩, dvd_refl v⟩
  · rename_i hnsq
    split
    · rename_i hp2
      have hz : v &&& (v - 1) = 0 := by simpa [IsPowerOfTwo] using hp2
      obtain ⟨j, hj⟩ := pow2_of_land_pred v hv hz
      rcases Nat.even_or_odd j with hje | hjo
      · exfalso
        obtain ⟨t, ht⟩ := hje
        apply hnsq
        rw [hj, ht, pow_add]
        exact IsSquare_sq (2 ^ t)
      · obtain ⟨t, ht⟩ := hjo
        constructor
        · exact ⟨2 ^ (t + 1), by rw [hj, ht]; ring⟩
        · exact ⟨2, by ring⟩
    · dsimp only
      split
      · rename_i cur heq
        have hpred := List.find?_some heq
        have hdvd : v ∣ cur * cur := Nat.dvd_of_mod_eq_zero (by simpa using hpred)
        exact ⟨⟨cur, rfl⟩, hdvd⟩
      · exact ⟨⟨v, rfl⟩, ⟨v, rfl⟩⟩

/-- Claim C5: for nonzero `k`, `EnsureSquareChunkSize` accepts `k` exactly
when `round(sqrt k)² = k` and otherwise raises the `ConfigurationError`
"number of chunks must be square"; for `k = 0` it instead derives (without
any error) a chunk count that is a perfect square and a multiple of the
process count. -/
theorem ensureSquareChunkSize_spec (k size : Nat) (hsize : 0 < size) :
    (k ≠ 0 →
      (EnsureSquareChunkSize k size = Except.ok k ↔
        roundedSqrt k * roundedSqrt k = k) ∧
      (roundedSqrt k * roundedSqrt k ≠ k →
        EnsureSquareChunkSize k size =
          Except.error "number of chunks must be square")) ∧
    (k = 0 → ∃ m, EnsureSquareChunkSize k size = Except.ok m ∧
      (∃ r, r * r = m) ∧ size ∣ m) := by
  constructor
  · intro hk
    have hk0 : (k == 0) = false := by simpa using hk
    cases hb : IsSquare k with
    | false =>
      have hres : EnsureSquareChunkSize k size =
          Except.error "number of chunks must be square" := by
        simp [EnsureSquareChunkSize, hk0, hb]
      have hne : roundedSqrt k * roundedSqrt k ≠ k := by
        intro heq
        have hcontra := (IsSquare_eq_true_iff_rounded k).mpr heq
        rw [hb] at hcontra
        exact Bool.noConfusion hcontra
      refine ⟨⟨fun hcontra => ?_, fun heq => absurd heq hne⟩, fun _ => hres⟩
      rw [hres] at hcontra
      exact Except.noConfusion hcontra
    | true =>
      have hres : EnsureSquareChunkSize k size = Except.ok k := by
        simp [EnsureSquareChunkSize, hk0, hb]
      have heq : roundedSqrt k * roundedSqrt k = k :=
        (IsSquare_eq_true_iff_rounded k).mp hb
      exact ⟨⟨fun _ => heq, fun _ => hres⟩, fun hne => absurd heq hne⟩
  · intro hk
    subst hk
    refine ⟨FindSquareMultipleOf size, by simp [EnsureSquareChunkSize], ?_, ?_⟩
    · exact (FindSquareMultipleOf_spec size hsize).1
    · exact (FindSquareMultipleOf_spec size hsize).2

/-- Witness for `ensureSquareChunkSize_spec` with the chunk count unset and
two processes (the derived chunk count is 4 = 2²). -/
theorem ensureSquareChunkSize_spec_witness :
    (0 : Nat) < 2 ∧
    (((0 : Nat) ≠ 0 →
       (EnsureSquareChunkSize 0 2 = Except.ok 0 ↔
         roundedSqrt 0 * roundedSqrt 0 = 0) ∧
       (roundedSqrt 0 * roundedSqrt 0 ≠ 0 →
         EnsureSquareChunkSize 0 2 =
           Except.error "number of chunks must be square")) ∧
     ((0 : Nat) = 0 → ∃ m, EnsureSquareChunkSize 0 2 = Except.ok m ∧
       (∃ r, r * r = m) ∧ 2 ∣ m)) :=
  ⟨by decide, ensureSquareChunkSize_spec 0 2 (by decide)⟩

/-- Indexing the table of partial sums used as `xadj`. -/
theorem getD_range_map (n : Nat) (f : Nat → Nat) (i : Nat) (h : i < n) :
    ((List.range n).map f).getD i 0 = f i := by
  rw [List.getD_eq_getElem?_getD, List.getElem?_map, List.getElem?_range h]
  rfl

/-- Dropping the combined length of the first `i` blocks of a flattened list
lands at the start of block `i`. -/
theorem flatten_drop_sum : ∀ (bs : List (List Nat)) (i : Nat),
    bs.flatten.drop (((bs.take i).map List.length).sum) = (bs.drop i).flatten
  | _, 0 => by simp
  | [], _ + 1 => by simp
  | b :: bs, i + 1 => by
    simp only [List.take_succ_cons, List.map_cons, List.sum_cons, List.flatten_cons,
      List.drop_succ_cons]
    rw [List.drop_append]
    exact flatten_drop_sum bs i

/-- Difference of adjacent partial block-length sums is the block length. -/
theorem sum_take_succ_sub (bs : List (List Nat)) (i : Nat) (h : i < bs.length) :
    ((bs.take (i + 1)).map List.length).sum -
        ((bs.take i).map List.length).sum = (bs.getD i []).length := by
  obtain ⟨x, hx⟩ : ∃ x, bs[i]? = some x := by
    rw [List.getElem?_eq_getElem h]
    exact ⟨_, rfl⟩
  rw [List.take_succ, hx]
  rw [List.getD_eq_getElem?_getD, hx]
  simp

/-- The CSR slice `adjncy[xadj[i] : xadj[i+1])` of a flattened block list is
block `i` itself. -/
theorem flatten_slice (bs : List (List Nat)) (i : Nat) (h : i < bs.length) :
    (bs.flatten.drop (((bs.take i).map List.length).sum)).take
        (((bs.take (i + 1)).map List.length).sum -
          ((bs.take i).map List.length).sum) =
      bs.getD i [] := by
  rw [flatten_drop_sum, sum_take_succ_sub bs i h]
  have hdrop : bs.drop i = bs.getD i [] :: bs.drop (i + 1) := by
    rw [List.getD_eq_getElem?_getD, List.getElem?_eq_getElem h]
    exact List.drop_eq_getElem_cons h
  rw [hdrop]
  simp only [List.flatten_cons]
  exact List.take_left _ _

/-- Pointwise-equal block functions give equal flat maps. -/
theorem flatMap_congr_mem {α β : Type} (l : List α) (f g : α → List β)
    (h : ∀ a ∈ l, f a = g a) : l.flatMap f = l.flatMap g := by
  induction l with
  | nil => rfl
  | cons a tl ih =>
    simp only [List.flatMap_cons]
    rw [h a (List.mem_cons_self a tl), ih (fun x hx => h x (List.mem_cons_of_mem a hx))]

/-- Re-attaching the common tail `c` to the heads of the edges whose tail is
`c` reproduces those edges. -/
theorem filter_tail_repair (c : Nat) :
    ∀ edges : List Edge,
      ((edges.filter (fun e => e.1 == c)).map Prod.snd).map (fun head => (c, head)) =
        edges.filter (fun e => e.1 == c)
  | [] => rfl
  | e :: rest => by
    rcases he : (e.1 == c) with hf | ht
    · rw [List.filter_cons_of_neg (by simp [he])]
      exact filter_tail_repair c rest
    · rw [List.filter_cons_of_pos (by simp [he])]
      simp only [List.map_cons]
      rw [filter_tail_repair c rest]
      have hpair : (c, e.2) = e := by
        have h1 : e.1 = c := by simpa using he
        cases e
        simp_all
      rw [hpair]

/-- Expanding the CSR built from an edge list reproduces the edge list grouped
by tail vertex, with the intra-group input order preserved. -/
theorem roundtrip_eq_grouped (range : VertexRange) (edges : List Edge) :
    BuildEdgeListFromCSR range (BuildCSRFromEdgeList range edges).1
        (BuildCSRFromEdgeList range edges).2 = groupedByTailVertex range edges := by
  unfold BuildEdgeListFromCSR BuildCSRFromEdgeList groupedByTailVertex
  simp only [List.length_map, List.length_range, Nat.add_sub_cancel]
  set bs := csrNeighborhoods range edges with hbs
  have hlen : bs.length = range.2 - range.1 := by
    rw [hbs]
    simp [csrNeighborhoods]
  rw [hlen]
  apply flatMap_congr_mem
  intro i hi
  have hiL : i < range.2 - range.1 := List.mem_range.mp hi
  have hibs : i < bs.length := by omega
  have h1 : ((List.range (range.2 - range.1 + 1)).map
      (fun i => (((bs.take i).map List.length).sum))).getD i 0 =
      ((bs.take i).map List.length).sum :=
    getD_range_map _ _ i (by omega)
  have h2 : ((List.range (range.2 - range.1 + 1)).map
      (fun i => (((bs.take i).map List.length).sum))).getD (i + 1) 0 =
      ((bs.take (i + 1)).map List.length).sum :=
    getD_range_map _ _ (i + 1) (by omega)
  rw [h1, h2, flatten_slice bs i hibs]
  have hnb : bs.getD i [] =
      (edges.filter (fun e => e.1 == range.1 + i)).map Prod.snd := by
    rw [hbs]
    simp only [csrNeighborhoods]
    rw [List.getD_eq_getElem?_getD, List.getElem?_map, List.getElem?_range hiL]
    rfl
  rw [hnb, filter_tail_repair]

/-- Prepending an edge whose tail bucket occurs exactly once among the
scanned bucket indices prepends it to the grouped list, up to permutation. -/
theorem flatMap_filter_cons_perm (e : Edge) (rest : List Edge) (c : Nat) :
    ∀ (is : List Nat) (i0 : Nat), is.Nodup → i0 ∈ is → e.1 = c + i0 →
      (is.flatMap (fun i => (e :: rest).filter (fun x => x.1 == c + i))).Perm
        (e :: is.flatMap (fun i => rest.filter (fun x => x.1 == c + i)))
  | [], i0, _, hmem, _ => absurd hmem (List.not_mem_nil i0)
  | j :: tl, i0, hnd, hmem, he => by
    simp only [List.nodup_cons] at hnd
    simp only [List.flatMap_cons]
    rcases List.mem_cons.mp hmem with hj | htl
    · subst hj
      have hpos : (e :: rest).filter (fun x => x.1 == c + i0) =
          e :: rest.filter (fun x => x.1 == c + i0) := by
        rw [List.filter_cons_of_pos (by simp [he])]
      have htl_eq : tl.flatMap (fun i => (e :: rest).filter (fun x => x.1 == c + i)) =
          tl.flatMap (fun i => rest.filter (fun x => x.1 == c + i)) := by
        apply flatMap_congr_mem
        intro i hi
        have hne : i ≠ i0 := fun hcontra => hnd.1 (hcontra ▸ hi)
        rw [List.filter_cons_of_neg (by simp [he]; omega)]
      rw [hpos, htl_eq]
      exact List.Perm.refl _
    · have hne : e.1 ≠ c + j := by
        have hij : i0 ≠ j := fun hcontra => hnd.1 (hcontra ▸ htl)
        omega
      rw [List.filter_cons_of_neg (by simp [hne])]
      have hperm := flatMap_filter_cons_perm e rest c tl i0 hnd.2 htl he
      exact (List.Perm.append_left _ hperm).trans List.perm_middle

/-- Grouping an edge list by tail bucket permutes the list, provided every
tail falls in one of the buckets. -/
theorem grouped_perm :
    ∀ (edges : List Edge) (c L : Nat),
      (∀ e ∈ edges, c ≤ e.1 ∧ e.1 < c + L) →
      ((List.range L).flatMap
        (fun i => edges.filter (fun e => e.1 == c + i))).Perm edges
  | [], _, _, _ => by simp
  | e :: rest, c, L, h => by
    have he := h e (List.mem_cons_self e rest)
    have hi0 : e.1 - c ∈ List.range L := List.mem_range.mpr (by omega)
    have heq : e.1 = c + (e.1 - c) := by omega
    have hstep := flatMap_filter_cons_perm e rest c (List.range L) (e.1 - c)
      (List.nodup_range L) hi0 heq
    exact hstep.trans
      ((grouped_perm rest c L (fun x hx => h x (List.mem_cons_of_mem e hx))).cons e)

/-- Claim C3: for every vertex range and edge list whose tails lie in the
range, expanding the CSR built from the edge list yields exactly the input
grouped by tail vertex with the intra-group input order preserved, and in
particular a permutation (multiset equal) of the input. -/
theorem buildCSR_roundtrip (range : VertexRange) (edges : List Edge)
    (h : ∀ e ∈ edges, range.1 ≤ e.1 ∧ e.1 < range.2) :
    BuildEdgeListFromCSR range (BuildCSRFromEdgeList range edges).1
        (BuildCSRFromEdgeList range edges).2 = groupedByTailVertex range edges ∧
    (BuildEdgeListFromCSR range (BuildCSRFromEdgeList range edges).1
        (BuildCSRFromEdgeList range edges).2).Perm edges := by
  refine ⟨roundtrip_eq_grouped range edges, ?_⟩
  rw [roundtrip_eq_grouped range edges]
  unfold groupedByTailVertex
  apply grouped_perm
  intro e he
  have hband := h e he
  omega

/-- Witness for `buildCSR_roundtrip` on the range `[5, 8)` with a multi-edge
and out-of-order tails. -/
theorem buildCSR_roundtrip_witness :
    (∀ e ∈ ([(5, 9), (7, 0), (5, 1), (6, 2), (5, 9)] : List Edge),
      (5 : Nat) ≤ e.1 ∧ e.1 < 8) ∧
    (BuildEdgeListFromCSR (5, 8)
        (BuildCSRFromEdgeList (5, 8) [(5, 9), (7, 0), (5, 1), (6, 2), (5, 9)]).1
        (BuildCSRFromEdgeList (5, 8) [(5, 9), (7, 0), (5, 1), (6, 2), (5, 9)]).2 =
      groupedByTailVertex (5, 8) [(5, 9), (7, 0), (5, 1), (6, 2), (5, 9)] ∧
     (BuildEdgeListFromCSR (5, 8)
        (BuildCSRFromEdgeList (5, 8) [(5, 9), (7, 0), (5, 1), (6, 2), (5, 9)]).1
        (BuildCSRFromEdgeList (5, 8) [(5, 9), (7, 0), (5, 1), (6, 2), (5, 9)]).2).Perm
      [(5, 9), (7, 0), (5, 1), (6, 2), (5, 9)]) :=
  ⟨by decide,
   buildCSR_roundtrip (5, 8) [(5, 9), (7, 0), (5, 1), (6, 2), (5, 9)] (by decide)⟩

/-- Advancing the rank adds one chunk-sized (or chunk+1-sized) step to the
range start. -/
theorem computeRange_fst_succ (n size r : Nat) :
    (ComputeRange n size (r + 1)).1 =
      (ComputeRange n size r).1 +
        (if r < n % size then n / size + 1 else n / size) := by
  simp only [ComputeRange, Nat.succ_mul]
  rcases Nat.lt_or_ge r (n % size) with h | h
  · rw [if_pos h]
    omega
  · rw [if_neg (Nat.not_lt.mpr h)]
    omega

/-- Rank 0 starts at vertex 0. -/
theorem computeRange_fst_zero (n size : Nat) : (ComputeRange n size 0).1 = 0 := by
  simp [ComputeRange]

/-- The virtual rank `size` would start exactly at `n`. -/
theorem computeRange_fst_size (n size : Nat) (h : 0 < size) :
    (ComputeRange n size size).1 = n := by
  simp only [ComputeRange]
  have h1 := Nat.div_add_mod n size
  have h2 : n % size < size := Nat.mod_lt _ h
  omega

/-- Range starts are monotone in the rank. -/
theorem computeRange_fst_mono (n size : Nat) :
    ∀ r rr, r ≤ rr → (ComputeRange n size r).1 ≤ (ComputeRange n size rr).1 := by
  intro r rr h
  induction rr with
  | zero =>
    have hr : r = 0 := by omega
    subst hr
    exact Nat.le_refl _
  | succ m ih =>
    rcases Nat.lt_or_ge r (m + 1) with h' | h'
    · calc (ComputeRange n size r).1 ≤ (ComputeRange n size m).1 := ih (by omega)
        _ ≤ (ComputeRange n size (m + 1)).1 := by
            rw [computeRange_fst_succ]
            exact Nat.le_add_right _ _
    · have he : r = m + 1 := by omega
      subst he
      exact Nat.le_refl _

/-- Every range start stays within `[0, n]`. -/
theorem computeRange_fst_le_n (n size r : Nat) (hr : r ≤ size) (hs : 0 < size) :
    (ComputeRange n size r).1 ≤ n := by
  have := computeRange_fst_mono n size r size hr
  rwa [computeRange_fst_size n size hs] at this

/-- For ranks below `size` the clamp against `n` is inactive: the range end is
the next rank's range start. -/
theorem computeRange_snd_eq (n size r : Nat) (hr : r < size) (hs : 0 < size) :
    (ComputeRange n size r).2 = (ComputeRange n size (r + 1)).1 := by
  have hmono := computeRange_fst_le_n n size (r + 1) (by omega) hs
  simp only [ComputeRange, Nat.succ_mul] at hmono ⊢
  rcases Nat.lt_or_ge r (n % size) with h | h
  · rw [if_pos h]
    omega
  · rw [if_neg (Nat.not_lt.mpr h)]
    omega

/-- Range ends never exceed `n`. -/
theorem computeRange_snd_le_n (n size r : Nat) : (ComputeRange n size r).2 ≤ n := by
  simp only [ComputeRange]
  exact Nat.min_le_right _ _

/-- Claim C9: for every vertex count `n` and process count `size ≥ 1`, the
ranges `ComputeRange n size rank` for `rank < size` partition `[0, n)`: they
are ordered (hence pairwise disjoint and monotonically increasing with rank),
every vertex below `n` lies in exactly the range found between consecutive
starts, and each range holds either `n / size` or `n / size + 1` vertices. -/
theorem computeRange_partition (n size : Nat) (hsize : 0 < size) :
    (∀ r rr, r < rr → rr < size →
      (ComputeRange n size r).2 ≤ (ComputeRange n size rr).1) ∧
    (∀ v, v < n ↔ ∃ r, r < size ∧ (ComputeRange n size r).1 ≤ v ∧
      v < (ComputeRange n size r).2) ∧
    (∀ r, r < size →
      (ComputeRange n size r).2 - (ComputeRange n size r).1 = n / size ∨
      (ComputeRange n size r).2 - (ComputeRange n size r).1 = n / size + 1) := by
  refine ⟨?_, ?_, ?_⟩
  · intro r rr hlt hrr
    rw [computeRange_snd_eq n size r (by omega) hsize]
    exact computeRange_fst_mono n size (r + 1) rr hlt
  · intro v
    constructor
    · intro hv
      set r0 := Nat.findGreatest (fun r => (ComputeRange n size r).1 ≤ v) (size - 1)
        with hr0
      have hP0 : (ComputeRange n size 0).1 ≤ v := by
        rw [computeRange_fst_zero]
        exact Nat.zero_le v
      have hspec : (ComputeRange n size r0).1 ≤ v := by
        rw [hr0]
        exact Nat.findGreatest_spec (P := fun r => (ComputeRange n size r).1 ≤ v)
          (Nat.zero_le (size - 1)) hP0
      have hle : r0 ≤ size - 1 := Nat.findGreatest_le _
      have hlt : r0 < size := by omega
      refine ⟨r0, hlt, hspec, ?_⟩
      have hupper : v < (ComputeRange n size (r0 + 1)).1 := by
        rcases Nat.lt_or_ge (r0 + 1) size with hcase | hcase
        · have hng := Nat.findGreatest_is_greatest
            (P := fun r => (ComputeRange n size r).1 ≤ v) (k := r0 + 1)
            (n := size - 1) (by omega) (by omega)
          exact Nat.lt_of_not_le hng
        · have hsz : r0 + 1 = size := by omega
          rw [hsz, computeRange_fst_size n size hsize]
          exact hv
      rw [computeRange_snd_eq n size r0 hlt hsize]
      exact hupper
    · rintro ⟨r, hr, hlo, hhi⟩
      exact Nat.lt_of_lt_of_le hhi (computeRange_snd_le_n n size r)
  · intro r hr
    rw [computeRange_snd_eq n size r hr hsize, computeRange_fst_succ]
    rcases Nat.lt_or_ge r (n % size) with h | h
    · rw [if_pos h]
      right
      exact Nat.add_sub_cancel_left _ _
    · rw [if_neg (Nat.not_lt.mpr h)]
      left
      exact Nat.add_sub_cancel_left _ _

/-- Witness for `computeRange_partition` at `n = 7`, `size = 3` (ranges
`[0,3)`, `[3,5)`, `[5,7)`). -/
theorem computeRange_partition_witness :
    (0 : Nat) < 3 ∧
    ((∀ r rr, r < rr → rr < 3 →
       (ComputeRange 7 3 r).2 ≤ (ComputeRange 7 3 rr).1) ∧
     (∀ v, v < 7 ↔ ∃ r, r < 3 ∧ (ComputeRange 7 3 r).1 ≤ v ∧
       v < (ComputeRange 7 3 r).2) ∧
     (∀ r, r < 3 →
       (ComputeRange 7 3 r).2 - (ComputeRange 7 3 r).1 = 7 / 3 ∨
       (ComputeRange 7 3 r).2 - (ComputeRange 7 3 r).1 = 7 / 3 + 1)) :=
  ⟨by decide, computeRange_partition 7 3 (by decide)⟩

/-- A component without an equal sign parses as a flag bound to "1"
(kagen.cpp:65-66). -/
theorem parseOptionPair_flag (p : CppString) (h : '=' ∉ p) :
    parseOptionPair p = (p, ['1']) := by
  unfold parseOptionPair
  rw [List.findIdx?_eq_none_iff.mpr]
  intro x hx
  simp only [decide_eq_false_iff_not]
  intro heq
  exact h (heq ▸ hx)

/-- A key that is not bound at all looks up to `none`. -/
theorem optionsGet_of_not_mem :
    ∀ (opts : List (CppString × CppString)) (k : CppString),
      k ∉ opts.map Prod.fst → optionsGet opts k = none
  | [], _, _ => rfl
  | kv :: rest, k, h => by
    simp only [List.map_cons, List.mem_cons] at h
    push_neg at h
    simp only [optionsGet]
    rw [optionsGet_of_not_mem rest k h.2, if_neg (fun he => h.1 he.symm)]

/-- With pairwise-distinct keys the lookup returns the recorded binding. -/
theorem optionsGet_of_mem :
    ∀ (opts : List (CppString × CppString)) (k v : CppString),
      (opts.map Prod.fst).Nodup → (k, v) ∈ opts → optionsGet opts k = some v
  | [], _, _, _, hmem => absurd hmem (List.not_mem_nil _)
  | kv :: rest, k, v, hnodup, hmem => by
    simp only [List.map_cons, List.nodup_cons] at hnodup
    rcases List.mem_cons.mp hmem with heq | htail
    · have hnot : k ∉ rest.map Prod.fst := by
        intro hin
        exact hnodup.1 (by rw [← heq]; exact hin)
      simp only [optionsGet]
      rw [optionsGet_of_not_mem rest k hnot, ← heq]
      simp
    · simp only [optionsGet]
      rw [optionsGet_of_mem rest k v hnodup.2 htail]

/-- Claim C8: in the option-string mini-language, a component `k` without an
equal sign is recorded as the flag `k = "1"` and read back as the boolean
`true` (assuming `k` is not rebound by a later component, which pairwise
distinct keys guarantee); and when the key `n` is absent but `N` is bound,
`config.n` defaults to `1` shifted left by the numeric value of `N`. -/
theorem optionString_semantics (s k vN : CppString) (hk : '=' ∉ k)
    (hnodup : (optionStringKeys s).Nodup) (hmem : k ∈ getlineSplit s) :
    (optionsGet (ParseOptionString s) k = some ['1'] ∧
     getBoolOrDefault (ParseOptionString s) k false = true) ∧
    (optionsGet (ParseOptionString s) ['n'] = none →
      optionsGet (ParseOptionString s) ['N'] = some vN →
      optionStringConfigN s = 1 <<< stollModel vN) := by
  have hkeys : (ParseOptionString s).map Prod.fst = optionStringKeys s := by
    simp [ParseOptionString, optionStringKeys, List.map_map, Function.comp]
  have hbind : (k, ['1']) ∈ ParseOptionString s := by
    have : parseOptionPair k ∈ ParseOptionString s :=
      List.mem_map_of_mem parseOptionPair hmem
    rwa [parseOptionPair_flag k hk] at this
  have hget : optionsGet (ParseOptionString s) k = some ['1'] :=
    optionsGet_of_mem _ k ['1'] (hkeys ▸ hnodup) hbind
  refine ⟨⟨hget, ?_⟩, fun hn hN => ?_⟩
  · simp [getBoolOrDefault, hget]
  · simp [optionStringConfigN, getSintOrDefault, hn, hN]

/-- Witness for `optionString_semantics` at the concrete option string
"type=gnm;periodic;N=4": the bare key `periodic` reads back as `true`, and
`n` comes out as `1 <<< 4 = 16`. -/
theorem optionString_semantics_witness :
    ('=' ∉ ("periodic".toList : CppString)) ∧
    ((optionStringKeys "type=gnm;periodic;N=4".toList).Nodup ∧
     "periodic".toList ∈ getlineSplit "type=gnm;periodic;N=4".toList) ∧
    ((optionsGet (ParseOptionString "type=gnm;periodic;N=4".toList)
        "periodic".toList = some ['1'] ∧
      getBoolOrDefault (ParseOptionString "type=gnm;periodic;N=4".toList)
        "periodic".toList false = true) ∧
     (optionsGet (ParseOptionString "type=gnm;periodic;N=4".toList) ['n'] = none →
       optionsGet (ParseOptionString "type=gnm;periodic;N=4".toList) ['N'] =
         some ['4'] →
       optionStringConfigN "type=gnm;periodic;N=4".toList = 1 <<< stollModel ['4'])) :=
  ⟨by decide, ⟨by decide, by decide⟩,
   optionString_semantics "type=gnm;periodic;N=4".toList "periodic".toList ['4']
     (by decide) (by decide) (by decide)⟩

/-- Evaluation of the defaulting at the witness string: `n` is indeed 16. -/
theorem optionString_configN_value :
    optionStringConfigN "type=gnm;periodic;N=4".toList = 16 := by decide

/-- Claim C1 (code bug): facade.cpp:169-170 reduces the per-process `success`
flags of `ValidateSimpleGraph` with `MPI_LOR`, so with two processes where
rank 0 passes and rank 1 fails the reduced flag is `true`: no process reports
the failure and no process exits nonzero — the failing rank proceeds on a
false negative, contradicting the claim (an AND-reduction of the success
flags, or an OR-reduction of failure flags as in chkgraph.cpp:160-161, would
be needed). -/
theorem validation_lor_masks_local_failure :
    [true, false].getD 1 true = false ∧
    (facadeGenerate (Except.ok 4) true [true, false] 0).exitCode = none ∧
    (facadeGenerate (Except.ok 4) true [true, false] 1).exitCode = none ∧
    (facadeGenerate (Except.ok 4) true [true, false] 0).validationErrorReported = false ∧
    (facadeGenerate (Except.ok 4) true [true, false] 1).validationErrorReported = false := by
  decide

/-- Claim C7: when `NormalizeParameters` raises a `ConfigurationError`, every
process exits with code 1 before the concrete generator is constructed, and
the error message is printed on the root process only (facade.cpp:115-124). -/
theorem configuration_error_path (res : Except String Nat) (msg : String)
    (h : res = Except.error msg) (validate : Bool) (localValid : List Bool)
    (rank : Nat) :
    (facadeGenerate res validate localValid rank).exitCode = some 1 ∧
    (facadeGenerate res validate localValid rank).generatorConstructed = false ∧
    ((facadeGenerate res validate localValid rank).configErrorReported = true ↔
      rank = ROOT) := by
  subst h
  refine ⟨rfl, rfl, ?_⟩
  simp [facadeGenerate]

/-- The chunk count 3 is rejected: `sqrt 3 = 1`, `round(sqrt 3) = 2`, and
neither squares to 3. -/
theorem ensureSquareChunkSize_three : EnsureSquareChunkSize 3 1 =
    Except.error "number of chunks must be square" := by
  have hs : Nat.sqrt 3 = 1 := (Nat.eq_sqrt.mpr (by omega)).symm
  simp [EnsureSquareChunkSize, IsSquare, roundedSqrt, hs]

/-- Witness for `configuration_error_path`: the non-square chunk count 3 on a
single-process communicator makes `EnsureSquareChunkSize` raise, and the
non-root process of rank 1 exits with code 1 without reporting. -/
theorem configuration_error_path_witness :
    EnsureSquareChunkSize 3 1 = Except.error "number of chunks must be square" ∧
    ((facadeGenerate (EnsureSquareChunkSize 3 1) false [] 1).exitCode = some 1 ∧
     (facadeGenerate (EnsureSquareChunkSize 3 1) false [] 1).generatorConstructed = false ∧
     ((facadeGenerate (EnsureSquareChunkSize 3 1) false [] 1).configErrorReported = true ↔
       (1 : Nat) = ROOT)) :=
  ⟨ensureSquareChunkSize_three,
   configuration_error_path (EnsureSquareChunkSize 3 1)
     "number of chunks must be square" ensureSquareChunkSize_three false [] 1⟩

end kagen
